import Mathlib

/-!
Verification of the fractulate mesh-growth program (src/main.rs).

The program reads an STL mesh, recursively attaches scaled, re-oriented
copies of the base mesh onto randomly chosen triangles ("growths"), and
writes the concatenated result.  We embed the core shallowly:

* `f32` scalars are idealised as an arbitrary `LinearOrderedField K`; the
  floating-point square root used by `norm`/`normalize` is abstracted as a
  function parameter `sqrt : K → K`, so every definition stays computable
  and theorems hold for the real square root in particular.  Division is
  the field's (total) division, so `normalize` of the zero vector yields
  the zero vector where `f32` would produce NaN components.
* the Xoshiro256** generator is abstracted as its stream of unit-interval
  draws: `RngState` holds the stream and a cursor, and `genRange lo hi`
  (rand's `gen_range(lo..hi)`) returns `lo + u * (hi - lo)` for the next
  draw `u` and advances the cursor.  rand's panic on an empty range is not
  modelled; the draw is total.
* `select`'s `assert!(!triangles.is_empty())` is a Rust panic; it is
  embedded as an `Except SelectError` value which every caller propagates,
  exactly as a panic aborts the run.
-/

namespace Fractulate

/-- `nalgebra::Vector3<f32>`, idealised over a field `K`. -/
structure Vec3 (K : Type) where
  x : K
  y : K
  z : K
  deriving DecidableEq, Repr

/-- One face: `[Vector3<f32>; 3]`, in stored vertex order. -/
structure Triangle (K : Type) where
  v0 : Vec3 K
  v1 : Vec3 K
  v2 : Vec3 K
  deriving DecidableEq, Repr

/-- A mesh: `Vec<[Vector3<f32>; 3]>`, an ordered list of triangles. -/
abbrev Mesh (K : Type) := List (Triangle K)

/-- `nalgebra::Matrix4<f32>`; `mij` is the entry in row `i`, column `j`,
matching the row-major argument order of `Matrix4::new`. -/
structure Mat4 (K : Type) where
  m00 : K
  m01 : K
  m02 : K
  m03 : K
  m10 : K
  m11 : K
  m12 : K
  m13 : K
  m20 : K
  m21 : K
  m22 : K
  m23 : K
  m30 : K
  m31 : K
  m32 : K
  m33 : K
  deriving DecidableEq, Repr

section

variable {K : Type} [LinearOrderedField K]

instance : Add (Vec3 K) where
  add a b := ⟨a.x + b.x, a.y + b.y, a.z + b.z⟩

instance : Sub (Vec3 K) where
  sub a b := ⟨a.x - b.x, a.y - b.y, a.z - b.z⟩

/-- Componentwise scalar division, nalgebra's `unscale`. -/
def vdiv (v : Vec3 K) (s : K) : Vec3 K :=
  ⟨v.x / s, v.y / s, v.z / s⟩

/-- `Vector3::cross`. -/
def cross (a b : Vec3 K) : Vec3 K :=
  ⟨a.y * b.z - a.z * b.y, a.z * b.x - a.x * b.z, a.x * b.y - a.y * b.x⟩

/-- `Vector3::norm`: the square root of the sum of squared components;
`sqrt` is the abstracted floating-point square root. -/
def norm (sqrt : K → K) (v : Vec3 K) : K :=
  sqrt (v.x * v.x + v.y * v.y + v.z * v.z)

/-- `Vector3::normalize`: `self / self.norm()`, with the field's total
division (no check for a zero norm, as in nalgebra). -/
def normalize (sqrt : K → K) (v : Vec3 K) : Vec3 K :=
  vdiv v (norm sqrt v)

/-- `Matrix4` multiplication, row `i` of `a` times column `j` of `b`. -/
def matMul (a b : Mat4 K) : Mat4 K where
  m00 := a.m00 * b.m00 + a.m01 * b.m10 + a.m02 * b.m20 + a.m03 * b.m30
  m01 := a.m00 * b.m01 + a.m01 * b.m11 + a.m02 * b.m21 + a.m03 * b.m31
  m02 := a.m00 * b.m02 + a.m01 * b.m12 + a.m02 * b.m22 + a.m03 * b.m32
  m03 := a.m00 * b.m03 + a.m01 * b.m13 + a.m02 * b.m23 + a.m03 * b.m33
  m10 := a.m10 * b.m00 + a.m11 * b.m10 + a.m12 * b.m20 + a.m13 * b.m30
  m11 := a.m10 * b.m01 + a.m11 * b.m11 + a.m12 * b.m21 + a.m13 * b.m31
  m12 := a.m10 * b.m02 + a.m11 * b.m12 + a.m12 * b.m22 + a.m13 * b.m32
  m13 := a.m10 * b.m03 + a.m11 * b.m13 + a.m12 * b.m23 + a.m13 * b.m33
  m20 := a.m20 * b.m00 + a.m21 * b.m10 + a.m22 * b.m20 + a.m23 * b.m30
  m21 := a.m20 * b.m01 + a.m21 * b.m11 + a.m22 * b.m21 + a.m23 * b.m31
  m22 := a.m20 * b.m02 + a.m21 * b.m12 + a.m22 * b.m22 + a.m23 * b.m32
  m23 := a.m20 * b.m03 + a.m21 * b.m13 + a.m22 * b.m23 + a.m23 * b.m33
  m30 := a.m30 * b.m00 + a.m31 * b.m10 + a.m32 * b.m20 + a.m33 * b.m30
  m31 := a.m30 * b.m01 + a.m31 * b.m11 + a.m32 * b.m21 + a.m33 * b.m31
  m32 := a.m30 * b.m02 + a.m31 * b.m12 + a.m32 * b.m22 + a.m33 * b.m32
  m33 := a.m30 * b.m03 + a.m31 * b.m13 + a.m32 * b.m23 + a.m33 * b.m33

instance : Mul (Mat4 K) where
  mul := matMul

/-- `Matrix4::new_scaling(s)`: uniform scaling of the linear part. -/
def newScaling (s : K) : Mat4 K :=
  ⟨s, 0, 0, 0, 0, s, 0, 0, 0, 0, s, 0, 0, 0, 0, 1⟩

/-- `Matrix4::new_translation(&v)`. -/
def newTranslation (v : Vec3 K) : Mat4 K :=
  ⟨1, 0, 0, v.x, 0, 1, 0, v.y, 0, 0, 1, v.z, 0, 0, 0, 1⟩

/-- `Matrix4::transform_point`: homogeneous transformation with `w = 1`,
dividing the result by its homogeneous coordinate. -/
def transformPoint (m : Mat4 K) (p : Vec3 K) : Vec3 K :=
  let w := m.m30 * p.x + m.m31 * p.y + m.m32 * p.z + m.m33
  ⟨(m.m00 * p.x + m.m01 * p.y + m.m02 * p.z + m.m03) / w,
   (m.m10 * p.x + m.m11 * p.y + m.m12 * p.z + m.m13) / w,
   (m.m20 * p.x + m.m21 * p.y + m.m22 * p.z + m.m23) / w⟩

/-- `fn transform`: transforms every vertex of every triangle as a point,
preserving triangle and vertex order. -/
def transform (triangles : Mesh K) (transformation : Mat4 K) : Mesh K :=
  triangles.map fun t =>
    ⟨transformPoint transformation t.v0,
     transformPoint transformation t.v1,
     transformPoint transformation t.v2⟩

/-- `fn get_normal`: `(v1 - v0).cross(v2 - v0).normalize()`. -/
def get_normal (sqrt : K → K) (face : Triangle K) : Vec3 K :=
  normalize sqrt (cross (face.v1 - face.v0) (face.v2 - face.v0))

/-- `fn place_on_triangle`: rotation columns `[x_axis, y_axis, normal]`
(from `Matrix4::new`'s row-major arguments), translated to the centroid. -/
def place_on_triangle (sqrt : K → K) (triangle : Triangle K) : Mat4 K :=
  let normal := get_normal sqrt triangle
  let x_axis := normalize sqrt (triangle.v1 - triangle.v0)
  let y_axis := cross normal x_axis
  let rotation : Mat4 K :=
    ⟨x_axis.x, y_axis.x, normal.x, 0, x_axis.y, y_axis.y, normal.y, 0,
     x_axis.z, y_axis.z, normal.z, 0, 0, 0, 0, 1⟩
  let center := vdiv (triangle.v0 + triangle.v1 + triangle.v2) 3
  newTranslation center * rotation

/-- The pseudo-random source, abstracted as its stream of draws in `[0, 1)`
and a cursor; each `gen_range` call consumes one draw. -/
structure RngState (K : Type) where
  draws : ℕ → K
  idx : ℕ

/-- `Rng::gen_range(lo..hi)`: `lo + u * (hi - lo)` for the next draw `u`,
advancing the cursor (total; rand's panic on an empty range not modelled). -/
def genRange (rng : RngState K) (lo hi : K) : K × RngState K :=
  (lo + rng.draws rng.idx * (hi - lo), ⟨rng.draws, rng.idx + 1⟩)

/-- The sampler's failure: `select`'s `assert!(!triangles.is_empty())`. -/
inductive SelectError where
  | emptySelection
  deriving DecidableEq, Repr

/-- `fn select`'s accumulation walk: `if area < a { return triangles[i] }
area -= a` over the (weight, triangle) pairs; `none` when the walk ends
without resolving the draw. -/
def selectWalk : K → List (K × Triangle K) → Option (Triangle K)
  | _, [] => none
  | area, (a, t) :: rest => if area < a then some t else selectWalk (area - a) rest

/-- The per-triangle weight computed inside `fn select`'s `map`: with
`a = t1 - t0` and `b = t2 - t0`, the weight is `a.cross(&b).norm()`
(twice the triangle's area). -/
def areaWeight (sqrt : K → K) (triangle : Triangle K) : K :=
  norm sqrt (cross (triangle.v1 - triangle.v0) (triangle.v2 - triangle.v0))

/-- `fn select`: area-weighted random choice.  The weights are the norms of
the edge cross products, the draw is `gen_range(0.0..total_area)`, and the
fallback when the walk does not resolve (`// probably floating point
error`) is the last triangle.  The `assert!` on an empty mesh is the
`emptySelection` error. -/
def select (sqrt : K → K) (rng : RngState K) (triangles : Mesh K) :
    Except SelectError (Triangle K × RngState K) :=
  match triangles with
  | [] => .error .emptySelection
  | t0 :: rest =>
    let areas := (t0 :: rest).map (areaWeight sqrt)
    let total_area := areas.sum
    let drawn := genRange rng 0 total_area
    match selectWalk drawn.1 (areas.zip (t0 :: rest)) with
    | some t => .ok (t, drawn.2)
    | none => .ok ((t0 :: rest).getLast (List.cons_ne_nil t0 rest), drawn.2)

/-- `num_children` in `fn growths`. -/
def numChildren : ℕ := 5

/-- `child_scale` in `fn growths` (`0.5f32` is exactly `1 / 2`). -/
def childScale : K := 1 / 2

/-- One iteration of `fn growths`' child loop: sample a triangle, build the
placement `place_on_triangle(triangle) * Matrix4::new_scaling(child_scale)`,
append the transformed base mesh, then the transformed recursive result
(`recur` is the call at the next depth). -/
def childStep (sqrt : K → K) (base_model : Mesh K)
    (recur : RngState K → Except SelectError (Mesh K × RngState K))
    (rng : RngState K) : Except SelectError (Mesh K × RngState K) :=
  match select sqrt rng base_model with
  | .error e => .error e
  | .ok (triangle, rng1) =>
    let transformation := place_on_triangle sqrt triangle * newScaling childScale
    match recur rng1 with
    | .error e => .error e
    | .ok (sub, rng2) =>
      .ok (transform base_model transformation ++ transform sub transformation, rng2)

/-- The `for _ in 0..num_children` loop: run `f` `k` times, threading the
random state and appending the results in iteration order. -/
def loopN (f : RngState K → Except SelectError (Mesh K × RngState K)) :
    ℕ → RngState K → Except SelectError (Mesh K × RngState K)
  | 0, rng => .ok ([], rng)
  | k + 1, rng =>
    match f rng with
    | .error e => .error e
    | .ok (part, rng1) =>
      match loopN f k rng1 with
      | .error e => .error e
      | .ok (rest, rng2) => .ok (part ++ rest, rng2)

/-- `fn growths`: `depth.checked_sub(1)` returns `None` at depth `0` (empty
result); otherwise five child iterations at the decremented depth. -/
def growths (sqrt : K → K) (base_model : Mesh K) :
    ℕ → RngState K → Except SelectError (Mesh K × RngState K)
  | 0, rng => .ok ([], rng)
  | depth + 1, rng => loopN (childStep sqrt base_model (growths sqrt base_model depth)) numChildren rng

/-- `fn main_transform`: seed the generator (the seeded Xoshiro256**
stream is the parameter `stream`), clone the input triangles and extend
them with `growths(&mut rng, &triangles, 2)`.  A panic inside `growths`
aborts the run, embedded as the propagated error. -/
def main_transform (sqrt : K → K) (stream : ℕ → K) (triangles : Mesh K) :
    Except SelectError (Mesh K) :=
  match growths sqrt triangles 2 ⟨stream, 0⟩ with
  | .error e => .error e
  | .ok (g, _) => .ok (triangles ++ g)

/-- Number of RNG draws `growths` consumes at a given depth: one per
`select`, five children per level. -/
def drawCount : ℕ → ℕ
  | 0 => 0
  | d + 1 => numChildren * (1 + drawCount d)

end

/-- A sample instantiation of the abstracted square root, for concrete
rational test inputs whose squared norms are already the intended weights. -/
def sqrtQ : ℚ → ℚ := fun q => q

/-- The all-zeros draw stream. -/
def zeroStream : ℕ → ℚ := fun _ => 0

/-- A concrete random state: all-zeros draws, cursor at the start. -/
def rng0 : RngState ℚ := ⟨zeroStream, 0⟩

/-- A concrete non-degenerate triangle (edge cross product `(0,0,1)`). -/
def T0 : Triangle ℚ := ⟨⟨0, 0, 0⟩, ⟨1, 0, 0⟩, ⟨0, 1, 0⟩⟩

/-- A concrete degenerate (colinear) triangle. -/
def Tdeg : Triangle ℚ := ⟨⟨0, 0, 0⟩, ⟨1, 1, 1⟩, ⟨2, 2, 2⟩⟩

section

variable {K : Type} [LinearOrderedField K]

theorem Vec3.sub_def (a b : Vec3 K) : a - b = ⟨a.x - b.x, a.y - b.y, a.z - b.z⟩ := rfl

theorem Vec3.add_def (a b : Vec3 K) : a + b = ⟨a.x + b.x, a.y + b.y, a.z + b.z⟩ := rfl

theorem Mat4.mul_def (a b : Mat4 K) : a * b = matMul a b := rfl

theorem translation_rotation_point (c xa ya n p : Vec3 K) :
    transformPoint (newTranslation c *
        (⟨xa.x, ya.x, n.x, 0, xa.y, ya.y, n.y, 0, xa.z, ya.z, n.z, 0, 0, 0, 0, 1⟩ : Mat4 K)) p
    = ⟨xa.x * p.x + ya.x * p.y + n.x * p.z + c.x,
       xa.y * p.x + ya.y * p.y + n.y * p.z + c.y,
       xa.z * p.x + ya.z * p.y + n.z * p.z + c.z⟩ := by
  simp only [Mat4.mul_def, matMul, newTranslation, transformPoint, Vec3.mk.injEq]
  and_intros <;> ring

/-- C6: `place_on_triangle` is `translation(centroid) * rotation` whose
rotation columns are `[x_axis, y_axis, z_axis]` with
`x_axis = normalize(v1 - v0)`, `z_axis` the triangle's normal
(`get_normal`), and `y_axis = cross(z_axis, x_axis)`; consequently the
transform maps the local origin to the centroid `(v0 + v1 + v2) / 3` and
the local x-axis direction to `normalize(v1 - v0)`. -/
theorem place_on_triangle_frame (sqrt : K → K) (t : Triangle K)
    (h : cross (t.v1 - t.v0) (t.v2 - t.v0) ≠ ⟨0, 0, 0⟩) :
    place_on_triangle sqrt t =
      newTranslation (vdiv (t.v0 + t.v1 + t.v2) 3) *
        (⟨(normalize sqrt (t.v1 - t.v0)).x,
          (cross (get_normal sqrt t) (normalize sqrt (t.v1 - t.v0))).x,
          (get_normal sqrt t).x, 0,
          (normalize sqrt (t.v1 - t.v0)).y,
          (cross (get_normal sqrt t) (normalize sqrt (t.v1 - t.v0))).y,
          (get_normal sqrt t).y, 0,
          (normalize sqrt (t.v1 - t.v0)).z,
          (cross (get_normal sqrt t) (normalize sqrt (t.v1 - t.v0))).z,
          (get_normal sqrt t).z, 0,
          0, 0, 0, 1⟩ : Mat4 K)
  ∧ transformPoint (place_on_triangle sqrt t) ⟨0, 0, 0⟩ = vdiv (t.v0 + t.v1 + t.v2) 3
  ∧ transformPoint (place_on_triangle sqrt t) ⟨1, 0, 0⟩
      - transformPoint (place_on_triangle sqrt t) ⟨0, 0, 0⟩
      = normalize sqrt (t.v1 - t.v0) := by
  have hpt : place_on_triangle sqrt t =
      newTranslation (vdiv (t.v0 + t.v1 + t.v2) 3) *
        (⟨(normalize sqrt (t.v1 - t.v0)).x,
          (cross (get_normal sqrt t) (normalize sqrt (t.v1 - t.v0))).x,
          (get_normal sqrt t).x, 0,
          (normalize sqrt (t.v1 - t.v0)).y,
          (cross (get_normal sqrt t) (normalize sqrt (t.v1 - t.v0))).y,
          (get_normal sqrt t).y, 0,
          (normalize sqrt (t.v1 - t.v0)).z,
          (cross (get_normal sqrt t) (normalize sqrt (t.v1 - t.v0))).z,
          (get_normal sqrt t).z, 0,
          0, 0, 0, 1⟩ : Mat4 K) := rfl
  refine ⟨hpt, ?_, ?_⟩
  · rw [hpt, translation_rotation_point]
    simp only [vdiv, Vec3.add_def, Vec3.mk.injEq]
    and_intros <;> ring
  · rw [hpt, translation_rotation_point, translation_rotation_point, Vec3.sub_def]
    simp only [Vec3.mk.injEq]
    and_intros <;> ring

/-- C8 (amended): when the edge cross product of a triangle is the zero
vector, `get_normal` and `place_on_triangle` do not fail: `get_normal`
returns the zero vector (`0 / 0` is totalised to `0`; the `f32` program
computes NaN components here) and that degenerate z-axis column propagates
into the placement matrix, whose entries `m02`, `m12`, `m22`, `m32` are all
zero.  No `DegenerateGeometryError` exists anywhere in the code. -/
theorem degenerate_no_error (sqrt : K → K) (t : Triangle K)
    (h : cross (t.v1 - t.v0) (t.v2 - t.v0) = ⟨0, 0, 0⟩) :
    get_normal sqrt t = ⟨0, 0, 0⟩
  ∧ (place_on_triangle sqrt t).m02 = 0
  ∧ (place_on_triangle sqrt t).m12 = 0
  ∧ (place_on_triangle sqrt t).m22 = 0
  ∧ (place_on_triangle sqrt t).m32 = 0 := by
  have hn : get_normal sqrt t = ⟨0, 0, 0⟩ := by
    rw [get_normal, h]
    simp [normalize, vdiv]
  refine ⟨hn, ?_, ?_, ?_, ?_⟩ <;>
    · simp only [place_on_triangle, Mat4.mul_def, matMul, newTranslation, vdiv, hn]
      ring

/-- C4: `growths` called with `remaining_depth = 0` returns the empty
sequence (and an unchanged random state), for every base mesh and every
other parameter. -/
theorem growths_depth_zero (sqrt : K → K) (base_model : Mesh K) (rng : RngState K) :
    growths sqrt base_model 0 rng = .ok ([], rng) := rfl

theorem selectWalk_mem {u : K} {l : List (K × Triangle K)} {t : Triangle K}
    (h : selectWalk u l = some t) : t ∈ l.map Prod.snd := by
  induction l generalizing u with
  | nil => simp [selectWalk] at h
  | cons p rest ih =>
    obtain ⟨a, tr⟩ := p
    by_cases hc : u < a
    · simp [selectWalk, hc] at h
      simp [h]
    · simp only [selectWalk, if_neg hc] at h
      exact List.mem_cons_of_mem _ (ih h)

theorem selectWalk_first {u : K} {l : List (K × Triangle K)} {i : ℕ} (hi : i < l.length)
    (hx : u < ((l.map Prod.fst).take (i + 1)).sum)
    (hmin : ∀ j, j < i → ¬ u < ((l.map Prod.fst).take (j + 1)).sum) :
    selectWalk u l = some (l.get ⟨i, hi⟩).2 := by
  induction l generalizing u i with
  | nil => simp at hi
  | cons p rest ih =>
    obtain ⟨a, tr⟩ := p
    cases i with
    | zero =>
      simp only [List.map_cons, List.take, List.sum_cons, List.take_zero, List.sum_nil,
        add_zero] at hx
      simp [selectWalk, hx]
    | succ i' =>
      have h0 : ¬ u < a := by
        have := hmin 0 (Nat.succ_pos i')
        simpa using this
      have hx' : u - a < ((rest.map Prod.fst).take (i' + 1)).sum := by
        rw [sub_lt_iff_lt_add']
        simpa using hx
      have hmin' : ∀ j, j < i' → ¬ u - a < ((rest.map Prod.fst).take (j + 1)).sum := by
        intro j hj
        have := hmin (j + 1) (Nat.succ_lt_succ hj)
        rw [sub_lt_iff_lt_add']
        simpa using this
      simp only [selectWalk, if_neg h0]
      exact ih (Nat.lt_of_succ_lt_succ hi) hx' hmin'

theorem selectWalk_exhausted {u : K} {l : List (K × Triangle K)}
    (h : ∀ i, (hi : i < l.length) → ¬ u < ((l.map Prod.fst).take (i + 1)).sum) :
    selectWalk u l = none := by
  induction l generalizing u with
  | nil => rfl
  | cons p rest ih =>
    obtain ⟨a, tr⟩ := p
    have h0 : ¬ u < a := by
      have := h 0 (Nat.succ_pos _)
      simpa using this
    simp only [selectWalk, if_neg h0]
    refine ih fun i hi => ?_
    have := h (i + 1) (Nat.succ_lt_succ hi)
    rw [sub_lt_iff_lt_add']
    simpa using this

theorem select_cons (sqrt : K → K) (rng : RngState K) (t0 : Triangle K) (rest : Mesh K) :
    select sqrt rng (t0 :: rest) =
      match selectWalk (genRange rng 0 (((t0 :: rest).map (areaWeight sqrt)).sum)).1
          (((t0 :: rest).map (areaWeight sqrt)).zip (t0 :: rest)) with
      | some t => .ok (t, (genRange rng 0 (((t0 :: rest).map (areaWeight sqrt)).sum)).2)
      | none => .ok ((t0 :: rest).getLast (List.cons_ne_nil t0 rest),
          (genRange rng 0 (((t0 :: rest).map (areaWeight sqrt)).sum)).2) := rfl

theorem select_cons_ok (sqrt : K → K) (rng : RngState K) (t0 : Triangle K) (rest : Mesh K) :
    ∃ p : Triangle K × RngState K, select sqrt rng (t0 :: rest) = .ok p := by
  rw [select_cons]
  cases hw : selectWalk (genRange rng 0 (((t0 :: rest).map (areaWeight sqrt)).sum)).1
      (((t0 :: rest).map (areaWeight sqrt)).zip (t0 :: rest)) with
  | none => exact ⟨_, rfl⟩
  | some t => exact ⟨_, rfl⟩

/-- C5: area-weighted selection: the weight of a triangle is the norm of
`cross(v1 - v0, v2 - v0)`; the draw is uniform in `[0, total_weight)`
(whenever the stream's draw lies in `[0, 1)` and the total weight is
positive); the returned triangle is the first whose accumulated weight
exceeds the draw; and when the walk leaves the draw unresolved, the last
triangle of the sequence is returned, never an error. -/
theorem select_area_weighted (sqrt : K → K) (rng : RngState K) (ts : Mesh K) (h : ts ≠ []) :
    (∀ t : Triangle K, areaWeight sqrt t
        = norm sqrt (cross (t.v1 - t.v0) (t.v2 - t.v0)))
  ∧ (0 ≤ rng.draws rng.idx → rng.draws rng.idx < 1 → 0 < (ts.map (areaWeight sqrt)).sum →
      0 ≤ (genRange rng 0 ((ts.map (areaWeight sqrt)).sum)).1
        ∧ (genRange rng 0 ((ts.map (areaWeight sqrt)).sum)).1 < (ts.map (areaWeight sqrt)).sum)
  ∧ (∀ i, (hi : i < ts.length) →
      (genRange rng 0 ((ts.map (areaWeight sqrt)).sum)).1
          < ((ts.map (areaWeight sqrt)).take (i + 1)).sum →
      (∀ j, j < i → ¬ (genRange rng 0 ((ts.map (areaWeight sqrt)).sum)).1
          < ((ts.map (areaWeight sqrt)).take (j + 1)).sum) →
      select sqrt rng ts = .ok (ts.get ⟨i, hi⟩, ⟨rng.draws, rng.idx + 1⟩))
  ∧ ((∀ i, i < ts.length → ¬ (genRange rng 0 ((ts.map (areaWeight sqrt)).sum)).1
          < ((ts.map (areaWeight sqrt)).take (i + 1)).sum) →
      select sqrt rng ts = .ok (ts.getLast h, ⟨rng.draws, rng.idx + 1⟩)) := by
  obtain ⟨t0, rest, rfl⟩ : ∃ t0 rest, ts = t0 :: rest := by
    cases ts with
    | nil => exact absurd rfl h
    | cons t0 rest => exact ⟨t0, rest, rfl⟩
  refine ⟨fun t => rfl, fun hd0 hd1 hS => ?_, fun i hi hx hmin => ?_, fun hnone => ?_⟩
  · constructor
    · simp only [genRange, sub_zero, zero_add]
      exact mul_nonneg hd0 (le_of_lt hS)
    · simp only [genRange, sub_zero, zero_add]
      exact mul_lt_of_lt_one_left hS hd1
  · have hlen : ((t0 :: rest).map (areaWeight sqrt)).length = (t0 :: rest).length :=
      List.length_map _ _
    have hizip : i < (((t0 :: rest).map (areaWeight sqrt)).zip (t0 :: rest)).length := by
      rw [List.length_zip, hlen, min_self]
      exact hi
    have hfst : ((((t0 :: rest).map (areaWeight sqrt)).zip (t0 :: rest)).map Prod.fst)
        = (t0 :: rest).map (areaWeight sqrt) :=
      List.map_fst_zip _ _ (le_of_eq hlen)
    have hw := selectWalk_first (l := ((t0 :: rest).map (areaWeight sqrt)).zip (t0 :: rest))
      (u := (genRange rng 0 (((t0 :: rest).map (areaWeight sqrt)).sum)).1) hizip
      (by rw [hfst]; exact hx) (by intro j hj; rw [hfst]; exact hmin j hj)
    have hget : ((((t0 :: rest).map (areaWeight sqrt)).zip (t0 :: rest)).get ⟨i, hizip⟩).2
        = (t0 :: rest).get ⟨i, hi⟩ := by
      simp only [List.get_eq_getElem, List.getElem_zip]
    rw [select_cons, hw, hget]
    rfl
  · have hlen : ((t0 :: rest).map (areaWeight sqrt)).length = (t0 :: rest).length :=
      List.length_map _ _
    have hfst : ((((t0 :: rest).map (areaWeight sqrt)).zip (t0 :: rest)).map Prod.fst)
        = (t0 :: rest).map (areaWeight sqrt) :=
      List.map_fst_zip _ _ (le_of_eq hlen)
    have hw := selectWalk_exhausted (l := ((t0 :: rest).map (areaWeight sqrt)).zip (t0 :: rest))
      (u := (genRange rng 0 (((t0 :: rest).map (areaWeight sqrt)).sum)).1)
      (by
        intro i hizip
        rw [hfst]
        refine hnone i ?_
        rw [List.length_zip, hlen, min_self] at hizip
        exact hizip)
    rw [select_cons, hw]
    rfl

/-- C9: sampling from the empty mesh fails with the empty-selection error
(the `assert!`), and never returns a triangle; on any non-empty mesh,
`select` never fails with an error. -/
theorem select_empty_vs_nonempty (sqrt : K → K) (rng : RngState K) (ts : Mesh K) :
    (select sqrt rng ts = .error .emptySelection ↔ ts = [])
  ∧ (∀ (t : Triangle K) (rng' : RngState K), select sqrt rng ([] : Mesh K) ≠ .ok (t, rng'))
  ∧ (ts ≠ [] → ∀ e : SelectError, select sqrt rng ts ≠ .error e) := by
  refine ⟨⟨?_, ?_⟩, ?_, ?_⟩
  · intro he
    cases ts with
    | nil => rfl
    | cons t0 rest =>
      obtain ⟨p, hp⟩ := select_cons_ok sqrt rng t0 rest
      rw [hp] at he
      exact absurd he (by simp)
  · rintro rfl
    rfl
  · intro t rng' hcontra
    exact absurd hcontra (by simp [select])
  · intro hne e hcontra
    cases ts with
    | nil => exact absurd rfl hne
    | cons t0 rest =>
      obtain ⟨p, hp⟩ := select_cons_ok sqrt rng t0 rest
      rw [hp] at hcontra
      exact absurd hcontra (by simp)

/-- C10: any triangle returned by `select` is an element of the input mesh:
either the triangle at which the accumulation walk resolved, or the last
triangle via the fallback. -/
theorem select_mem (sqrt : K → K) (rng : RngState K) (ts : Mesh K) (t : Triangle K)
    (rng' : RngState K) (h : select sqrt rng ts = .ok (t, rng')) : t ∈ ts := by
  cases ts with
  | nil => exact absurd h (by simp [select])
  | cons t0 rest =>
    rw [select_cons] at h
    cases hw : selectWalk (genRange rng 0 (((t0 :: rest).map (areaWeight sqrt)).sum)).1
        (((t0 :: rest).map (areaWeight sqrt)).zip (t0 :: rest)) with
    | some tt =>
      rw [hw] at h
      simp only [Except.ok.injEq, Prod.mk.injEq] at h
      obtain ⟨⟨rfl, -⟩⟩ := h
      have hmem := selectWalk_mem hw
      have hsnd : ((((t0 :: rest).map (areaWeight sqrt)).zip (t0 :: rest)).map Prod.snd)
          = t0 :: rest :=
        List.map_snd_zip _ _ (le_of_eq (List.length_map _ _).symm)
      rwa [hsnd] at hmem
    | none =>
      rw [hw] at h
      simp only [Except.ok.injEq, Prod.mk.injEq] at h
      obtain ⟨⟨rfl, -⟩⟩ := h
      exact List.getLast_mem _

theorem areaWeight_T0 : areaWeight sqrtQ T0 = 1 := by
  norm_num [areaWeight, norm, cross, sqrtQ, T0, Vec3.sub_def]

theorem select_rng0_T0 : select sqrtQ rng0 [T0] = .ok (T0, ⟨zeroStream, 1⟩) := by
  rw [select_cons]
  have hdraw : (genRange rng0 0 (([T0].map (areaWeight sqrtQ)).sum)).1 = 0 := by
    simp [genRange, rng0, zeroStream]
  have hw : selectWalk (genRange rng0 0 (([T0].map (areaWeight sqrtQ)).sum)).1
      (([T0].map (areaWeight sqrtQ)).zip [T0]) = some T0 := by
    rw [hdraw]
    simp [selectWalk, areaWeight_T0]
  rw [hw]
  rfl

/-- C5's witness: on the one-triangle mesh `[T0]` with the all-zeros draw
stream, the walk resolves at index 0 and `select` returns `T0`. -/
theorem select_area_weighted_witness :
    (([T0] : Mesh ℚ) ≠ []) ∧ select sqrtQ rng0 [T0] = .ok (T0, ⟨zeroStream, 1⟩) := by
  have hx : (genRange rng0 0 (([T0].map (areaWeight sqrtQ)).sum)).1
      < (([T0].map (areaWeight sqrtQ)).take (0 + 1)).sum := by
    norm_num [genRange, rng0, zeroStream, areaWeight_T0]
  have hmin : ∀ j, j < 0 → ¬ (genRange rng0 0 (([T0].map (areaWeight sqrtQ)).sum)).1
      < (([T0].map (areaWeight sqrtQ)).take (j + 1)).sum := by
    intro j hj
    exact absurd hj (Nat.not_lt_zero j)
  exact ⟨by simp, (select_area_weighted sqrtQ rng0 [T0] (by simp)).2.2.1 0 (by simp) hx hmin⟩

/-- C10's witness: the concretely selected triangle is a member of the
input mesh. -/
theorem select_mem_witness :
    select sqrtQ rng0 [T0] = .ok (T0, ⟨zeroStream, 1⟩) ∧ T0 ∈ [T0] :=
  ⟨select_rng0_T0, select_mem sqrtQ rng0 [T0] T0 ⟨zeroStream, 1⟩ select_rng0_T0⟩

/-- C6's witness: at the concrete non-degenerate triangle `T0`, the
placement transform maps the local origin to the centroid. -/
theorem place_on_triangle_frame_witness :
    cross (T0.v1 - T0.v0) (T0.v2 - T0.v0) ≠ (⟨0, 0, 0⟩ : Vec3 ℚ)
  ∧ transformPoint (place_on_triangle sqrtQ T0) ⟨0, 0, 0⟩ = vdiv (T0.v0 + T0.v1 + T0.v2) 3 := by
  have hc : cross (T0.v1 - T0.v0) (T0.v2 - T0.v0) ≠ (⟨0, 0, 0⟩ : Vec3 ℚ) := by
    norm_num [cross, T0, Vec3.sub_def]
  exact ⟨hc, (place_on_triangle_frame sqrtQ T0 hc).2.1⟩

/-- C8's counterexample: on the concrete colinear triangle `Tdeg` the cross
product is zero, yet `get_normal` returns (not fails with an error) the
degenerate zero vector, whose zero norm and zero z-axis column silently
propagate into the placement matrix. -/
theorem degenerate_silent_propagation :
    cross (Tdeg.v1 - Tdeg.v0) (Tdeg.v2 - Tdeg.v0) = (⟨0, 0, 0⟩ : Vec3 ℚ)
  ∧ get_normal sqrtQ Tdeg = ⟨0, 0, 0⟩
  ∧ norm sqrtQ (get_normal sqrtQ Tdeg) = 0
  ∧ (place_on_triangle sqrtQ Tdeg).m02 = 0
  ∧ (place_on_triangle sqrtQ Tdeg).m12 = 0
  ∧ (place_on_triangle sqrtQ Tdeg).m22 = 0 := by
  refine ⟨?_, ?_, ?_, ?_, ?_, ?_⟩ <;>
    norm_num [place_on_triangle, Mat4.mul_def, matMul, newTranslation, vdiv, get_normal,
      normalize, norm, cross, Tdeg, Vec3.sub_def, Vec3.add_def, sqrtQ]

/-- C8's witness (for the amended statement): the hypothesis holds at the
concrete colinear triangle `Tdeg`. -/
theorem degenerate_no_error_witness :
    cross (Tdeg.v1 - Tdeg.v0) (Tdeg.v2 - Tdeg.v0) = (⟨0, 0, 0⟩ : Vec3 ℚ)
  ∧ get_normal sqrtQ Tdeg = ⟨0, 0, 0⟩ := by
  have hc : cross (Tdeg.v1 - Tdeg.v0) (Tdeg.v2 - Tdeg.v0) = (⟨0, 0, 0⟩ : Vec3 ℚ) := by
    norm_num [cross, Tdeg, Vec3.sub_def]
  exact ⟨hc, (degenerate_no_error sqrtQ Tdeg hc).1⟩


theorem transform_length (triangles : Mesh K) (transformation : Mat4 K) :
    (transform triangles transformation).length = triangles.length :=
  List.length_map _ _

theorem select_ok_state {sqrt : K → K} {rng : RngState K} {ts : Mesh K} {t : Triangle K}
    {rng' : RngState K} (h : select sqrt rng ts = .ok (t, rng')) :
    rng' = ⟨rng.draws, rng.idx + 1⟩ := by
  cases ts with
  | nil => exact absurd h (by simp [select])
  | cons t0 rest =>
    rw [select_cons] at h
    cases hw : selectWalk (genRange rng 0 (((t0 :: rest).map (areaWeight sqrt)).sum)).1
        (((t0 :: rest).map (areaWeight sqrt)).zip (t0 :: rest)) with
    | some tt =>
      rw [hw] at h
      simp only [Except.ok.injEq, Prod.mk.injEq] at h
      exact h.2.symm
    | none =>
      rw [hw] at h
      simp only [Except.ok.injEq, Prod.mk.injEq] at h
      exact h.2.symm

theorem select_shape (sqrt : K → K) (rng : RngState K) (t0 : Triangle K) (rest : Mesh K) :
    ∃ t : Triangle K, select sqrt rng (t0 :: rest) = .ok (t, ⟨rng.draws, rng.idx + 1⟩) := by
  obtain ⟨⟨t, rng'⟩, hp⟩ := select_cons_ok sqrt rng t0 rest
  exact ⟨t, by rw [hp, select_ok_state hp]⟩

theorem loopN_succ_ok {f : RngState K → Except SelectError (Mesh K × RngState K)} {k : ℕ}
    {rng s1 s2 : RngState K} {a b : Mesh K}
    (hfa : f rng = .ok (a, s1)) (hb : loopN f k s1 = .ok (b, s2)) :
    loopN f (k + 1) rng = .ok (a ++ b, s2) := by
  simp only [loopN, hfa, hb]

theorem loopN_shape {f : RngState K → Except SelectError (Mesh K × RngState K)} {c n : ℕ}
    (hf : ∀ rng : RngState K, ∃ l, f rng = .ok (l, ⟨rng.draws, rng.idx + c⟩) ∧ l.length = n) :
    ∀ (k : ℕ) (rng : RngState K),
      ∃ l, loopN f k rng = .ok (l, ⟨rng.draws, rng.idx + k * c⟩) ∧ l.length = k * n := by
  intro k
  induction k with
  | zero => intro rng; exact ⟨[], by simp [loopN], by simp⟩
  | succ k ih =>
    intro rng
    obtain ⟨a, hfa, halen⟩ := hf rng
    obtain ⟨b, hb, hblen⟩ := ih ⟨rng.draws, rng.idx + c⟩
    have hidx : rng.idx + c + k * c = rng.idx + (k + 1) * c := by ring
    have hb' : loopN f k ⟨rng.draws, rng.idx + c⟩
        = .ok (b, ⟨rng.draws, rng.idx + (k + 1) * c⟩) := by
      rw [hb, hidx]
    refine ⟨a ++ b, loopN_succ_ok hfa hb', ?_⟩
    rw [List.length_append, halen, hblen, Nat.succ_mul, Nat.add_comm]

theorem childStep_shape (sqrt : K → K) (t0 : Triangle K) (rest : Mesh K) {d : ℕ}
    (ih : ∀ rng : RngState K,
      ∃ l, growths sqrt (t0 :: rest) d rng = .ok (l, ⟨rng.draws, rng.idx + drawCount d⟩)
        ∧ l.length = (t0 :: rest).length * drawCount d) :
    ∀ rng : RngState K,
      ∃ l, childStep sqrt (t0 :: rest) (growths sqrt (t0 :: rest) d) rng
          = .ok (l, ⟨rng.draws, rng.idx + (1 + drawCount d)⟩)
        ∧ l.length = (t0 :: rest).length * (1 + drawCount d) := by
  intro rng
  obtain ⟨t, hsel⟩ := select_shape sqrt rng t0 rest
  obtain ⟨sub, hsub, hsublen⟩ := ih ⟨rng.draws, rng.idx + 1⟩
  have hidx : rng.idx + 1 + drawCount d = rng.idx + (1 + drawCount d) := by ring
  have hsub' : growths sqrt (t0 :: rest) d ⟨rng.draws, rng.idx + 1⟩
      = .ok (sub, ⟨rng.draws, rng.idx + (1 + drawCount d)⟩) := by
    rw [hsub, hidx]
  refine ⟨transform (t0 :: rest) (place_on_triangle sqrt t * newScaling childScale)
      ++ transform sub (place_on_triangle sqrt t * newScaling childScale), ?_, ?_⟩
  · simp only [childStep, hsel, hsub']
  · rw [List.length_append, transform_length, transform_length, hsublen,
      Nat.mul_add, Nat.mul_one]

theorem growths_shape (sqrt : K → K) (t0 : Triangle K) (rest : Mesh K) :
    ∀ (d : ℕ) (rng : RngState K),
      ∃ l, growths sqrt (t0 :: rest) d rng = .ok (l, ⟨rng.draws, rng.idx + drawCount d⟩)
        ∧ l.length = (t0 :: rest).length * drawCount d := by
  intro d
  induction d with
  | zero => intro rng; exact ⟨[], by simp [growths, drawCount], by simp [drawCount]⟩
  | succ d ih =>
    intro rng
    obtain ⟨l, hl, hlen⟩ := loopN_shape (childStep_shape sqrt t0 rest ih) numChildren rng
    refine ⟨l, ?_, ?_⟩
    · rw [growths, hl]
      rfl
    · rw [hlen, drawCount]
      ring

theorem drawCount_eq_geom : ∀ d : ℕ,
    drawCount d = (Finset.range d).sum fun i => numChildren ^ (i + 1) := by
  intro d
  induction d with
  | zero => rfl
  | succ d ih =>
    rw [drawCount, ih, Finset.sum_range_succ', Nat.mul_add, Nat.mul_one, Finset.mul_sum,
      Nat.add_comm]
    have hterm : ∀ i ∈ Finset.range d,
        numChildren * numChildren ^ (i + 1) = numChildren ^ (i + 1 + 1) := by
      intro i _
      rw [pow_succ]
      ring
    rw [Finset.sum_congr rfl hterm, pow_one]

theorem main_transform_eq_map (sqrt : K → K) (stream : ℕ → K) (triangles : Mesh K) :
    main_transform sqrt stream triangles
      = (growths sqrt triangles 2 ⟨stream, 0⟩).map fun p => triangles ++ p.1 := by
  cases hg : growths sqrt triangles 2 ⟨stream, 0⟩ with
  | error e => simp [main_transform, hg, Except.map]
  | ok p => simp [main_transform, hg, Except.map]


/-- C1 (amended): for every non-empty base mesh, `growths` succeeds and the
returned sequence contains exactly
`base_triangle_count * Σ_{i=1..depth} num_children^i` triangles (with
`num_children = 5`); the random cursor advances by one draw per child. -/
theorem growths_triangle_count (sqrt : K → K) (base_model : Mesh K) (d : ℕ)
    (rng : RngState K) (h : base_model ≠ []) :
    (growths sqrt base_model d rng).map (fun p => p.1.length)
      = .ok (base_model.length * (Finset.range d).sum fun i => numChildren ^ (i + 1)) := by
  obtain ⟨t0, rest, rfl⟩ : ∃ t0 rest, base_model = t0 :: rest := by
    cases base_model with
    | nil => exact absurd rfl h
    | cons t0 rest => exact ⟨t0, rest, rfl⟩
  obtain ⟨l, hl, hlen⟩ := growths_shape sqrt t0 rest d rng
  rw [hl]
  simp only [Except.map, hlen, drawCount_eq_geom]

/-- C1's counterexample: on the empty base mesh at depth 2 (the program's
call), `growths` does not return a sequence at all — the sampler's
`assert!` fires — in particular it does not return the `0 = N * Σ`
triangles the claim predicts for `N = 0`. -/
theorem growths_empty_mesh_cex :
    growths sqrtQ ([] : Mesh ℚ) 2 rng0 = .error .emptySelection := rfl

/-- C1's witness: a concrete one-triangle mesh at depth 2. -/
theorem growths_triangle_count_witness :
    (([T0] : Mesh ℚ) ≠ [])
  ∧ (growths sqrtQ [T0] 2 rng0).map (fun p => p.1.length)
      = .ok ([T0].length * (Finset.range 2).sum fun i => numChildren ^ (i + 1)) :=
  ⟨by simp, growths_triangle_count sqrtQ [T0] 2 rng0 (by simp)⟩

/-- C2: each level of `growths` is five child iterations; in one child
iteration the placement is
`place_on_triangle(sampled_triangle) * uniform_scale(child_scale)`, and the
recursive result is transformed under that same placement and appended
after the transformed copy of the entire base mesh. -/
theorem growths_child_placement (sqrt : K → K) (base_model : Mesh K) (d : ℕ)
    (rng rng1 rng2 : RngState K) (triangle : Triangle K) (sub : Mesh K)
    (hsel : select sqrt rng base_model = .ok (triangle, rng1))
    (hrec : growths sqrt base_model d rng1 = .ok (sub, rng2)) :
    growths sqrt base_model (d + 1) rng
        = loopN (childStep sqrt base_model (growths sqrt base_model d)) numChildren rng
  ∧ childStep sqrt base_model (growths sqrt base_model d) rng
      = .ok (transform base_model (place_on_triangle sqrt triangle * newScaling childScale)
          ++ transform sub (place_on_triangle sqrt triangle * newScaling childScale), rng2) := by
  refine ⟨rfl, ?_⟩
  simp only [childStep, hsel, hrec]

/-- C2's witness: concrete child iteration at depth 1 over `[T0]`. -/
theorem growths_child_placement_witness :
    select sqrtQ rng0 [T0] = .ok (T0, ⟨zeroStream, 1⟩)
  ∧ childStep sqrtQ [T0] (growths sqrtQ [T0] 0) rng0
      = .ok (transform [T0] (place_on_triangle sqrtQ T0 * newScaling childScale)
          ++ transform [] (place_on_triangle sqrtQ T0 * newScaling childScale),
          ⟨zeroStream, 1⟩) :=
  ⟨select_rng0_T0,
   (growths_child_placement sqrtQ [T0] 0 rng0 ⟨zeroStream, 1⟩ ⟨zeroStream, 1⟩ T0 []
      select_rng0_T0 rfl).2⟩

/-- C3: the orchestrator's output is exactly the base mesh concatenated
with the growth engine's sequence, in that order; whenever an output mesh
is produced, the base mesh is an unmodified prefix of it and no triangle
is removed. -/
theorem main_transform_concat (sqrt : K → K) (stream : ℕ → K) (triangles : Mesh K) :
    main_transform sqrt stream triangles
        = (growths sqrt triangles 2 ⟨stream, 0⟩).map (fun p => triangles ++ p.1)
  ∧ ∀ out : Mesh K, main_transform sqrt stream triangles = .ok out →
      ∃ g rng', growths sqrt triangles 2 ⟨stream, 0⟩ = .ok (g, rng')
        ∧ out = triangles ++ g ∧ triangles <+: out := by
  refine ⟨main_transform_eq_map sqrt stream triangles, ?_⟩
  intro out hout
  rw [main_transform_eq_map] at hout
  cases hg : growths sqrt triangles 2 ⟨stream, 0⟩ with
  | error e =>
    rw [hg] at hout
    simp [Except.map] at hout
  | ok p =>
    obtain ⟨g, rng'⟩ := p
    rw [hg] at hout
    simp only [Except.map, Except.ok.injEq] at hout
    refine ⟨g, rng', rfl, hout.symm, ?_⟩
    rw [← hout]
    exact List.prefix_append _ _

/-- C3's witness: the concatenation equation at a concrete run. -/
theorem main_transform_concat_witness :
    main_transform sqrtQ zeroStream [T0]
      = (growths sqrtQ [T0] 2 ⟨zeroStream, 0⟩).map (fun p => [T0] ++ p.1) :=
  (main_transform_concat sqrtQ zeroStream [T0]).1


theorem map_fst_to_append (triangles : Mesh K)
    (x y : Except SelectError (Mesh K × RngState K))
    (h : x.map (fun p => p.1) = y.map (fun p => p.1)) :
    x.map (fun p => triangles ++ p.1) = y.map (fun p => triangles ++ p.1) := by
  cases x with
  | error e =>
    cases y with
    | error e' => cases e <;> cases e' <;> rfl
    | ok q => simp [Except.map] at h
  | ok p =>
    cases y with
    | error e' => simp [Except.map] at h
    | ok q =>
      simp only [Except.map, Except.ok.injEq] at h ⊢
      rw [h]

theorem select_fst_congr (sqrt : K → K) (ts : Mesh K) (r1 r2 : RngState K)
    (hd : r1.draws r1.idx = r2.draws r2.idx) :
    (select sqrt r1 ts).map (fun p => p.1) = (select sqrt r2 ts).map (fun p => p.1) := by
  cases ts with
  | nil => rfl
  | cons t0 rest =>
    have hu : (genRange r1 0 (((t0 :: rest).map (areaWeight sqrt)).sum)).1
        = (genRange r2 0 (((t0 :: rest).map (areaWeight sqrt)).sum)).1 := by
      simp [genRange, hd]
    rw [select_cons sqrt r1, select_cons sqrt r2, hu]
    cases hw : selectWalk (genRange r2 0 (((t0 :: rest).map (areaWeight sqrt)).sum)).1
        (((t0 :: rest).map (areaWeight sqrt)).zip (t0 :: rest)) with
    | some t => rfl
    | none => rfl

theorem loopN_childStep_window (sqrt : K → K) (t0 : Triangle K) (rest : Mesh K) (d : ℕ)
    (ihd : ∀ r1 r2 : RngState K,
      (∀ k, k < drawCount d → r1.draws (r1.idx + k) = r2.draws (r2.idx + k)) →
      (growths sqrt (t0 :: rest) d r1).map (fun p => p.1)
        = (growths sqrt (t0 :: rest) d r2).map (fun p => p.1)) :
    ∀ (k : ℕ) (r1 r2 : RngState K),
      (∀ j, j < k * (1 + drawCount d) → r1.draws (r1.idx + j) = r2.draws (r2.idx + j)) →
      (loopN (childStep sqrt (t0 :: rest) (growths sqrt (t0 :: rest) d)) k r1).map (fun p => p.1)
        = (loopN (childStep sqrt (t0 :: rest) (growths sqrt (t0 :: rest) d)) k r2).map
            (fun p => p.1) := by
  intro k
  induction k with
  | zero => intro r1 r2 _; rfl
  | succ k ih =>
    intro r1 r2 hw
    have hd0 : r1.draws r1.idx = r2.draws r2.idx := by
      have hpos : 0 < (k + 1) * (1 + drawCount d) :=
        Nat.mul_pos (by omega) (by omega)
      have := hw 0 hpos
      simpa using this
    obtain ⟨t1, hsel1⟩ := select_shape sqrt r1 t0 rest
    obtain ⟨t2, hsel2⟩ := select_shape sqrt r2 t0 rest
    have ht : t1 = t2 := by
      have hc := select_fst_congr sqrt (t0 :: rest) r1 r2 hd0
      rw [hsel1, hsel2] at hc
      simpa [Except.map] using hc
    subst ht
    obtain ⟨g1, hg1, -⟩ := growths_shape sqrt t0 rest d ⟨r1.draws, r1.idx + 1⟩
    obtain ⟨g2, hg2, -⟩ := growths_shape sqrt t0 rest d ⟨r2.draws, r2.idx + 1⟩
    have hg1' : growths sqrt (t0 :: rest) d ⟨r1.draws, r1.idx + 1⟩
        = .ok (g1, ⟨r1.draws, r1.idx + (1 + drawCount d)⟩) := by
      have hidx : r1.idx + 1 + drawCount d = r1.idx + (1 + drawCount d) := by ring
      simpa [hidx] using hg1
    have hg2' : growths sqrt (t0 :: rest) d ⟨r2.draws, r2.idx + 1⟩
        = .ok (g2, ⟨r2.draws, r2.idx + (1 + drawCount d)⟩) := by
      have hidx : r2.idx + 1 + drawCount d = r2.idx + (1 + drawCount d) := by ring
      simpa [hidx] using hg2
    have hgsub : g1 = g2 := by
      have hwin' : ∀ j, j < drawCount d →
          (⟨r1.draws, r1.idx + 1⟩ : RngState K).draws
              ((⟨r1.draws, r1.idx + 1⟩ : RngState K).idx + j)
            = (⟨r2.draws, r2.idx + 1⟩ : RngState K).draws
              ((⟨r2.draws, r2.idx + 1⟩ : RngState K).idx + j) := by
        intro j hj
        have hb : 1 + j < (k + 1) * (1 + drawCount d) := by
          have h1 : 1 + j < 1 + drawCount d := by omega
          have h2 : 1 + drawCount d ≤ (k + 1) * (1 + drawCount d) :=
            Nat.le_mul_of_pos_left _ (by omega)
          exact lt_of_lt_of_le h1 h2
        have := hw (1 + j) hb
        have harr1 : r1.idx + (1 + j) = r1.idx + 1 + j := by ring
        have harr2 : r2.idx + (1 + j) = r2.idx + 1 + j := by ring
        rw [harr1, harr2] at this
        simpa using this
      have := ihd ⟨r1.draws, r1.idx + 1⟩ ⟨r2.draws, r2.idx + 1⟩ hwin'
      rw [hg1', hg2'] at this
      simpa [Except.map] using this
    subst hgsub
    have hc1 : childStep sqrt (t0 :: rest) (growths sqrt (t0 :: rest) d) r1
        = .ok (transform (t0 :: rest) (place_on_triangle sqrt t1 * newScaling childScale)
            ++ transform g1 (place_on_triangle sqrt t1 * newScaling childScale),
            ⟨r1.draws, r1.idx + (1 + drawCount d)⟩) := by
      simp only [childStep, hsel1, hg1']
    have hc2 : childStep sqrt (t0 :: rest) (growths sqrt (t0 :: rest) d) r2
        = .ok (transform (t0 :: rest) (place_on_triangle sqrt t1 * newScaling childScale)
            ++ transform g1 (place_on_triangle sqrt t1 * newScaling childScale),
            ⟨r2.draws, r2.idx + (1 + drawCount d)⟩) := by
      simp only [childStep, hsel2, hg2']
    have hshape : ∀ rng' : RngState K,
        ∃ l, childStep sqrt (t0 :: rest) (growths sqrt (t0 :: rest) d) rng'
            = .ok (l, ⟨rng'.draws, rng'.idx + (1 + drawCount d)⟩)
          ∧ l.length = (t0 :: rest).length * (1 + drawCount d) :=
      childStep_shape sqrt t0 rest (growths_shape sqrt t0 rest d)
    obtain ⟨b1, hb1, -⟩ := loopN_shape hshape k ⟨r1.draws, r1.idx + (1 + drawCount d)⟩
    obtain ⟨b2, hb2, -⟩ := loopN_shape hshape k ⟨r2.draws, r2.idx + (1 + drawCount d)⟩
    have hbsub : b1 = b2 := by
      have hwin' : ∀ j, j < k * (1 + drawCount d) →
          (⟨r1.draws, r1.idx + (1 + drawCount d)⟩ : RngState K).draws
              ((⟨r1.draws, r1.idx + (1 + drawCount d)⟩ : RngState K).idx + j)
            = (⟨r2.draws, r2.idx + (1 + drawCount d)⟩ : RngState K).draws
              ((⟨r2.draws, r2.idx + (1 + drawCount d)⟩ : RngState K).idx + j) := by
        intro j hj
        have hb : (1 + drawCount d) + j < (k + 1) * (1 + drawCount d) := by
          have h1 : (1 + drawCount d) + j < (1 + drawCount d) + k * (1 + drawCount d) :=
            Nat.add_lt_add_left hj _
          have heq : (k + 1) * (1 + drawCount d)
              = (1 + drawCount d) + k * (1 + drawCount d) := by ring
          rw [heq]
          exact h1
        have := hw ((1 + drawCount d) + j) hb
        have harr1 : r1.idx + ((1 + drawCount d) + j) = r1.idx + (1 + drawCount d) + j := by
          ring
        have harr2 : r2.idx + ((1 + drawCount d) + j) = r2.idx + (1 + drawCount d) + j := by
          ring
        rw [harr1, harr2] at this
        simpa using this
      have := ih ⟨r1.draws, r1.idx + (1 + drawCount d)⟩ ⟨r2.draws, r2.idx + (1 + drawCount d)⟩
        hwin'
      rw [hb1, hb2] at this
      simpa [Except.map] using this
    subst hbsub
    rw [loopN_succ_ok hc1 hb1, loopN_succ_ok hc2 hb2]
    rfl

theorem growths_fst_window (sqrt : K → K) (base_model : Mesh K) :
    ∀ (d : ℕ) (r1 r2 : RngState K),
      (∀ k, k < drawCount d → r1.draws (r1.idx + k) = r2.draws (r2.idx + k)) →
      (growths sqrt base_model d r1).map (fun p => p.1)
        = (growths sqrt base_model d r2).map (fun p => p.1) := by
  intro d
  induction d with
  | zero => intro r1 r2 _; rfl
  | succ d ih =>
    intro r1 r2 hw
    cases base_model with
    | nil => rfl
    | cons t0 rest =>
      exact loopN_childStep_window sqrt t0 rest d ih numChildren r1 r2 hw


/-- C7: the pipeline is a deterministic function of the base mesh and the
seeded draw stream: two runs whose streams agree on the `drawCount 2 = 30`
draws the program consumes (in their fixed sequential order) produce
identical output meshes, and on success the random state has been threaded
linearly through exactly that many draws. -/
theorem main_transform_deterministic (sqrt : K → K) (s1 s2 : ℕ → K) (triangles : Mesh K)
    (hwin : ∀ k, k < drawCount 2 → s1 k = s2 k) :
    main_transform sqrt s1 triangles = main_transform sqrt s2 triangles
  ∧ (∀ (l : Mesh K) (r' : RngState K), growths sqrt triangles 2 ⟨s1, 0⟩ = .ok (l, r') →
      r'.draws = s1 ∧ r'.idx = drawCount 2) := by
  constructor
  · have hfst := growths_fst_window sqrt triangles 2 ⟨s1, 0⟩ ⟨s2, 0⟩
      (by intro k hk; simpa using hwin k hk)
    rw [main_transform_eq_map, main_transform_eq_map]
    exact map_fst_to_append triangles _ _ hfst
  · intro l r' hok
    cases triangles with
    | nil =>
      have hnil : growths sqrt ([] : Mesh K) 2 ⟨s1, 0⟩ = .error .emptySelection := rfl
      rw [hnil] at hok
      exact absurd hok (by simp)
    | cons t0 rest =>
      obtain ⟨l0, hl0, -⟩ := growths_shape sqrt t0 rest 2 ⟨s1, 0⟩
      rw [hl0] at hok
      simp only [Except.ok.injEq, Prod.mk.injEq] at hok
      rw [← hok.2]
      exact ⟨rfl, by simp⟩


/-- C7's witness: two concrete streams that agree on the consumed window
(but differ beyond it) yield the same output on a concrete mesh. -/
theorem main_transform_deterministic_witness :
    (∀ k, k < drawCount 2 → zeroStream k
        = (fun n => if n < drawCount 2 then (0 : ℚ) else 1) k)
  ∧ main_transform sqrtQ zeroStream [T0]
      = main_transform sqrtQ (fun n => if n < drawCount 2 then (0 : ℚ) else 1) [T0] := by
  have hw : ∀ k, k < drawCount 2 → zeroStream k
      = (fun n => if n < drawCount 2 then (0 : ℚ) else 1) k := by
    intro k hk
    simp [zeroStream, hk]
  exact ⟨hw, (main_transform_deterministic sqrtQ zeroStream
    (fun n => if n < drawCount 2 then (0 : ℚ) else 1) [T0] hw).1⟩

end

end Fractulate
